import Mathlib

/-!
Verification of the two regex-substitution maintenance scripts
(fix_boost_json.py, "Script A", and fix_config.py, "Script B").

Each script applies Python re.sub substitutions to a file's text.  We embed
the text as List Char and each substitution as a left-to-right scanner that,
at every position, attempts the (hand-compiled) regex match and otherwise
moves one character forward, exactly as re.sub does.  Character classes are
modelled at ASCII level (the identifiers and keys appearing in these C++
sources are ASCII): Python \w is letter/digit/underscore, \s is the six
ASCII whitespace characters, \d is a decimal digit.

Backtracking notes (why the scanners below are faithful compilations of the
regexes in the source).  Every group in these patterns is a greedy run of a
character class followed by a literal character that the class rejects
( \w+ then a non-word character, \d+ then a parenthesis, [^"]+ then a
quote, \s+ then a word character ), so the regex engine is forced to take
the maximal run: shortening the run by backtracking places the follower
inside the run, where the required literal cannot match.  The individual
rules record their remaining subtleties in their own doc comments.
-/

/-- Python re \w at ASCII level: letter, digit or underscore. -/

def isWordChar (c : Char) : Bool := c.isAlphanum || c == '_'

/-- Python re \s at ASCII level: space, tab, newline, carriage return,
vertical tab, form feed. -/

def isSpaceChar (c : Char) : Bool :=
  c == ' ' || c == '\t' || c == '\n' || c == '\r' || c == '\x0b' || c == '\x0c'

/-- A \b word boundary holds before a word character exactly when the
previous character (none at the start of the text) is not a word character. -/

def boundaryBefore : Option Char → Bool
  | none => true
  | some c => !isWordChar c

/-- One pass of re.sub, fuel-indexed so that every definition is structurally
recursive and kernel-computable.  step prev s attempts a match at the current
position: some (out, p2, rest) emits out, records p2 as the character
preceding rest in the original text (for \b), and resumes at rest; none
emits one character and moves on.  The fuel is an upper bound on the length
of the remaining input; the wrapper scanP always supplies enough. -/

def scanAux (step : Option Char → List Char → Option (List Char × Option Char × List Char)) :
    Nat → Option Char → List Char → List Char
  | 0, _, s => s
  | _ + 1, _, [] => []
  | n + 1, prev, c :: cs =>
    match step prev (c :: cs) with
    | some (out, p2, rest) => out ++ scanAux step n p2 rest
    | none => c :: scanAux step n (some c) cs

/-- One pass of re.sub over s, starting with prev as the character before
the current position (none at the start of the file). -/

def scanP (step : Option Char → List Char → Option (List Char × Option Char × List Char))
    (prev : Option Char) (s : List Char) : List Char :=
  scanAux step s.length prev s

/-- Step function for the four purely literal rules of Script A (lines 19,
20, 23 and 24 of fix_boost_json.py): a \b boundary, then the literal pat,
replaced by repl.  All four literals start with a word character, so the
boundary is exactly boundaryBefore; all four end in lastc, which becomes
the preceding character for the continued scan. -/

def stepLit (pat repl : List Char) (lastc : Char) (prev : Option Char) (s : List Char) :
    Option (List Char × Option Char × List Char) :=
  if boundaryBefore prev && pat.isPrefixOf s && !pat.isEmpty then
    some (repl, some lastc, s.drop pat.length)
  else
    none

/-- Rule at line 19 of fix_boost_json.py:
re.sub of \bjson::array\(\) to boost::json::array(). -/

def ruleJsonArray (s : List Char) : List Char :=
  scanP (stepLit "json::array()".data "boost::json::array()".data ')') none s

/-- Rule at line 20 of fix_boost_json.py:
re.sub of \bboost::json::value::array\(\) to boost::json::array(). -/

def ruleValueArray (s : List Char) : List Char :=
  scanP (stepLit "boost::json::value::array()".data "boost::json::array()".data ')') none s

/-- Rule at line 23 of fix_boost_json.py:
re.sub of \bjson::object\(\) to boost::json::object(). -/

def ruleJsonObject (s : List Char) : List Char :=
  scanP (stepLit "json::object()".data "boost::json::object()".data ')') none s

/-- Rule at line 24 of fix_boost_json.py:
re.sub of \bboost::json::value::object\(\) to boost::json::object(). -/

def ruleValueObject (s : List Char) : List Char :=
  scanP (stepLit "boost::json::value::object()".data "boost::json::object()".data ')') none s

/-! Rule at line 27 of fix_boost_json.py:
re.sub of (\w+)\.dump\((\d+)\) to boost::json::serialize(\1). -/

def litDump : List Char := ".dump(".data

/-- Matches \.dump\((\d+)\) at the start of r: the literal ".dump(", a
nonempty maximal digit run, then ")".  Returns the input after the match.
Maximality of the digit run is forced: were \d+ to backtrack, the next
character would be a digit, not the required ")". -/

def parseDumpSuffix (r : List Char) : Option (List Char) :=
  if litDump.isPrefixOf r then
    let r2 := r.drop litDump.length
    let d := r2.takeWhile Char.isDigit
    let r3 := r2.dropWhile Char.isDigit
    if d = [] then none
    else
      match r3 with
      | ')' :: rest => some rest
      | _ => none
  else none

/-- Step function for the dump rule.  The pattern has no \b and no
backreference, so a failed match attempt at the start of a maximal \w+ run
fails at every position inside the run as well (the greedy \w+ always
extends to the same run end, so every start position sees the same
follower); the scanner may therefore emit a failed run whole.  prev is
never consulted. -/

def stepDump (_prev : Option Char) (s : List Char) :
    Option (List Char × Option Char × List Char) :=
  match s with
  | [] => none
  | c :: cs =>
    if isWordChar c then
      let w := (c :: cs).takeWhile isWordChar
      let r1 := (c :: cs).dropWhile isWordChar
      match parseDumpSuffix r1 with
      | some rest => some ("boost::json::serialize(".data ++ w ++ [')'], none, rest)
      | none => some (w, none, r1)
    else none

/-- Rule at line 27 of fix_boost_json.py. -/

def ruleDump (s : List Char) : List Char :=
  scanP stepDump none s

/-! Rule at line 31 of fix_boost_json.py: re.sub of
(\w+)\.contains\("([^"]+)"\) to \1.is_object() && \1.as_object().contains("\2").
The two literal pieces of the replacement are shared with Script B's
pattern, which matches them back. -/

def litContains : List Char := ".contains(\"".data

def litIsObj : List Char := ".is_object() && ".data

def litAsObjContains : List Char := ".as_object().contains(\"".data

/-- Matches \.contains\("([^"]+)"\) at the start of r: the literal
".contains(" and an opening quote, a nonempty maximal run of non-quote
characters, a closing quote, then ")".  Returns the captured key and the
input after the match.  Maximality of [^"]+ is forced: the class cannot
cross a quote, and backtracking would place the required quote on a
non-quote character. -/

def parseContainsSuffix (r : List Char) : Option (List Char × List Char) :=
  if litContains.isPrefixOf r then
    let r2 := r.drop litContains.length
    let k := r2.takeWhile (fun c => !(c == '"'))
    let r3 := r2.dropWhile (fun c => !(c == '"'))
    if k = [] then none
    else
      match r3 with
      | '"' :: ')' :: rest => some (k, rest)
      | _ => none
  else none

/-- Step function for the contains rule; like stepDump, the pattern has no
\b and no backreference, so a failed maximal \w+ run can be emitted whole,
and prev is never consulted. -/

def stepContains (_prev : Option Char) (s : List Char) :
    Option (List Char × Option Char × List Char) :=
  match s with
  | [] => none
  | c :: cs =>
    if isWordChar c then
      let w := (c :: cs).takeWhile isWordChar
      let r1 := (c :: cs).dropWhile isWordChar
      match parseContainsSuffix r1 with
      | some (k, rest) =>
        some (w ++ litIsObj ++ w ++ litAsObjContains ++ k ++ ['"', ')'], none, rest)
      | none => some (w, none, r1)
    else none

/-- Rule at line 31 of fix_boost_json.py. -/

def ruleContains (s : List Char) : List Char :=
  scanP stepContains none s

/-! Script B, fix_config.py line 13: re.sub of
(\w+)\.is_object\(\) && \1\.as_object\(\)\.contains\("([^"]+)"\) to
\1.contains("\2"). -/

/-- Matches Script B's whole pattern at the start of s.  Because of the
backreference \1, a failed attempt at the start of a \w+ run does not rule
out a match further inside the run (a shorter suffix of the run can agree
with the backreference), so Script B's scanner advances one character at a
time on failure; this parser is attempted at every position.  The leading
\w+ is still forced to the maximal run: after it the pattern requires ".",
and backtracking would place that "." on a word character.  Likewise the
backreference must be followed by ".", so the second occurrence must also
end exactly where the word run ends. -/

def parseBMatch (s : List Char) : Option (List Char × List Char × List Char) :=
  let w := s.takeWhile isWordChar
  let r1 := s.dropWhile isWordChar
  if w = [] then none
  else if litIsObj.isPrefixOf r1 then
    let r2 := r1.drop litIsObj.length
    if w.isPrefixOf r2 then
      let r3 := r2.drop w.length
      if litAsObjContains.isPrefixOf r3 then
        let r4 := r3.drop litAsObjContains.length
        let k := r4.takeWhile (fun c => !(c == '"'))
        let r5 := r4.dropWhile (fun c => !(c == '"'))
        if k = [] then none
        else
          match r5 with
          | '"' :: ')' :: rest => some (w, k, rest)
          | _ => none
      else none
    else none
  else none

/-- Step function for Script B's rule: attempt the full pattern at the
current position, otherwise move one character (no run skipping, see
parseBMatch).  prev is never consulted (no \b in the pattern). -/

def stepB (_prev : Option Char) (s : List Char) :
    Option (List Char × Option Char × List Char) :=
  match parseBMatch s with
  | some (w, k, rest) => some (w ++ litContains ++ k ++ ['"', ')'], none, rest)
  | none => none

/-- The single substitution of fix_config.py (line 13). -/

def ruleConfigContains (s : List Char) : List Char :=
  scanP stepB none s

/-! Rule at line 16 of fix_boost_json.py: re.sub of
\bjson\s+(\w+);\s*\n(\s*)\1\[" to boost::json::object \1;\n\2\1[". -/

def litJson : List Char := "json".data

/-- Matches Script A's declaration pattern at the current position (the \b
is checked by stepDecl): literal "json", a nonempty maximal \s+ run, a
nonempty maximal \w+ run (group 1, the variable name), ";", then \s*\n.
Since \s matches the newline itself, the greedy \s* followed by \n consumes
the whitespace after ";" up to and including the LAST newline of the
maximal whitespace run (the first successful backtracking stop), so group 2
is the newline-free tail of that run; the backreference \1 and literal \["
must follow immediately after the run (inside the run only whitespace
occurs, where \1, which starts with a word character, cannot match).
Returns the replacement text and the input after the match. -/

def parseDecl (s : List Char) : Option (List Char × List Char) :=
  if litJson.isPrefixOf s then
    let r1 := s.drop litJson.length
    let ws1 := r1.takeWhile isSpaceChar
    let r2 := r1.dropWhile isSpaceChar
    if ws1 = [] then none
    else
      let name := r2.takeWhile isWordChar
      let r3 := r2.dropWhile isWordChar
      if name = [] then none
      else
        match r3 with
        | ';' :: r4 =>
          let ws2 := r4.takeWhile isSpaceChar
          let r5 := r4.dropWhile isSpaceChar
          if ws2.contains '\n' then
            let b := (ws2.reverse.takeWhile (fun c => !(c == '\n'))).reverse
            if (name ++ ['[', '"']).isPrefixOf r5 then
              some ("boost::json::object ".data ++ name ++ ';' :: '\n' :: (b ++ name ++ ['[', '"']),
                r5.drop (name.length + 2))
            else none
          else none
        | _ => none
  else none

/-- Step function for the declaration rule: the \b boundary, then the rest
of the pattern via parseDecl.  A match always ends on the double quote of
\[", which becomes the preceding character of the continued scan. -/

def stepDecl (prev : Option Char) (s : List Char) :
    Option (List Char × Option Char × List Char) :=
  if boundaryBefore prev then
    match parseDecl s with
    | some (repl, rest) => some (repl, some '"', rest)
    | none => none
  else none

/-- Rule at line 16 of fix_boost_json.py. -/

def ruleDecl (s : List Char) : List Char :=
  scanP stepDecl none s

/-! The two scripts as whole-file transforms. -/

/-- Result of fix_boost_json_file on one file: the content written back (if
any), the lines printed, and the returned boolean. -/

structure FixResult where
  written : Option String
  printed : List String
  fixed : Bool
deriving DecidableEq

/-- The six substitutions of fix_boost_json_file (lines 16 to 31), in
source order, applied to a file's full text. -/

def applyFixes (content : String) : String :=
  String.mk (ruleContains (ruleDump (ruleValueObject (ruleJsonObject
    (ruleValueArray (ruleJsonArray (ruleDecl content.data)))))))

/-- fix_boost_json_file (Script A, lines 7 to 45): apply the six
substitutions, then write, print and return True only if the content
changed. -/

def fix_boost_json_file (filepath : String) (content : String) : FixResult :=
  let newContent := applyFixes content
  if newContent ≠ content then
    FixResult.mk (some newContent) ["Fixed: " ++ filepath] true
  else
    FixResult.mk none [] false

/-- Result of a run of fix_config.py: the content written back and the
lines printed. -/

structure ConfigResult where
  written : Option String
  printed : List String
deriving DecidableEq

/-- fix_config.py (Script B), as a function of the content of
src/config.cpp: apply the single substitution, write the result back
unconditionally, print the fixed message unconditionally. -/

def fix_config (content : String) : ConfigResult :=
  ConfigResult.mk (some (String.mk (ruleConfigContains content.data)))
    ["Fixed config.cpp"]

/-- The main function of fix_boost_json.py (lines 47 to 58), as a function of the list
of (path, content) pairs the three globs produce: run
fix_boost_json_file on each file in order (each printing its own line),
count the True returns, and print the final count line. -/

def mainStep (acc : List String × Nat) (f : String × String) : List String × Nat :=
  let r := fix_boost_json_file f.1 f.2
  (acc.1 ++ r.printed, acc.2 + (if r.fixed then 1 else 0))

def mainScriptA (cppFiles : List (String × String)) : List String :=
  let res := cppFiles.foldl mainStep ([], 0)
  res.1 ++ ["Fixed " ++ toString res.2 ++ " files"]

/-! The theorems. -/

theorem isPrefixOfToPre {p l : List Char} (h : p.isPrefixOf l = true) : p <+: l :=
  List.isPrefixOf_iff_prefix.mp h

theorem scanAux_nil (step) (n : Nat) (p : Option Char) : scanAux step n p [] = [] := by
  cases n <;> rfl

/-- A step that always consumes at least one character makes the scan
independent of any sufficiently large fuel. -/

theorem scanAux_congr_fuel (step)
    (hstep : ∀ p s out p2 r, step p s = some (out, p2, r) → r.length < s.length) :
    ∀ n1 n2 p s, s.length ≤ n1 → s.length ≤ n2 →
      scanAux step n1 p s = scanAux step n2 p s := by
  intro n1
  induction n1 with
  | zero =>
    intro n2 p s h1 _
    have hs : s = [] := List.eq_nil_of_length_eq_zero (Nat.le_zero.mp h1)
    subst hs
    rw [scanAux_nil, scanAux_nil]
  | succ m ih =>
    intro n2 p s h1 h2
    cases s with
    | nil => rw [scanAux_nil, scanAux_nil]
    | cons c cs =>
      cases n2 with
      | zero => simp at h2
      | succ m2 =>
        cases hst : step p (c :: cs) with
        | none =>
          have hl : cs.length ≤ m := by
            simp only [List.length_cons] at h1; omega
          have hl2 : cs.length ≤ m2 := by
            simp only [List.length_cons] at h2; omega
          simp only [scanAux, hst]
          rw [ih m2 (some c) cs hl hl2]
        | some res =>
          obtain ⟨out, p2, r⟩ := res
          have hr := hstep p (c :: cs) out p2 r hst
          have hl : r.length ≤ m := by
            simp only [List.length_cons] at h1 hr; omega
          have hl2 : r.length ≤ m2 := by
            simp only [List.length_cons] at h2 hr; omega
          simp only [scanAux, hst]
          rw [ih m2 p2 r hl hl2]

theorem scanP_nil (step) (p : Option Char) : scanP step p [] = [] := rfl

theorem scanP_cons_none (step) (p : Option Char) (c : Char) (cs : List Char)
    (h : step p (c :: cs) = none) :
    scanP step p (c :: cs) = c :: scanP step (some c) cs := by
  show scanAux step (c :: cs).length p (c :: cs) = c :: scanAux step cs.length (some c) cs
  rw [List.length_cons]
  simp only [scanAux, h]

theorem scanP_cons_some (step)
    (hstep : ∀ p s out p2 r, step p s = some (out, p2, r) → r.length < s.length)
    (p : Option Char) (c : Char) (cs : List Char) (out : List Char) (p2 : Option Char)
    (r : List Char) (h : step p (c :: cs) = some (out, p2, r)) :
    scanP step p (c :: cs) = out ++ scanP step p2 r := by
  show scanAux step (c :: cs).length p (c :: cs) = out ++ scanAux step r.length p2 r
  rw [List.length_cons]
  simp only [scanAux, h]
  have hr := hstep p (c :: cs) out p2 r h
  simp only [List.length_cons] at hr
  rw [scanAux_congr_fuel step hstep cs.length r.length p2 r (by omega) (by omega)]

theorem stepLit_dec (pat repl : List Char) (lastc : Char) :
    ∀ p s out p2 r, stepLit pat repl lastc p s = some (out, p2, r) → r.length < s.length := by
  intro p s out p2 r h
  simp only [stepLit] at h
  split at h
  · rename_i hc
    simp only [Bool.and_eq_true, Bool.not_eq_true'] at hc
    have hpre : pat.length ≤ s.length :=
      (isPrefixOfToPre hc.1.2).length_le
    have hne : pat ≠ [] := by
      intro he; rw [he] at hc; simp at hc
    have hpos : 0 < pat.length := List.length_pos.mpr hne
    simp only [Option.some.injEq, Prod.mk.injEq] at h
    obtain ⟨_, _, hr⟩ := h
    subst hr
    rw [List.length_drop]
    omega
  · exact absurd h (by simp)

/-! Basic list facts used to evaluate the scanners on symbolic inputs. -/

theorem dropWhileLenLe (p : Char → Bool) : ∀ l : List Char, (l.dropWhile p).length ≤ l.length := by
  intro l
  induction l with
  | nil => simp
  | cons c cs ih =>
    by_cases h : p c
    · rw [List.dropWhile_cons_of_pos h]
      simp only [List.length_cons]
      omega
    · rw [List.dropWhile_cons_of_neg h]

theorem takeWhileApp (p : Char → Bool) :
    ∀ (v rest : List Char), (∀ c ∈ v, p c = true) →
      (∀ c, rest.head? = some c → p c = false) →
      (v ++ rest).takeWhile p = v := by
  intro v
  induction v with
  | nil =>
    intro rest _ hr
    cases rest with
    | nil => rfl
    | cons c cs =>
      simp only [List.nil_append]
      rw [List.takeWhile_cons_of_neg]
      simp [hr c rfl]
  | cons a v ih =>
    intro rest hv hr
    have ha : p a = true := hv a (by simp)
    simp only [List.cons_append]
    rw [List.takeWhile_cons_of_pos ha]
    rw [ih rest (fun c hc => hv c (by simp [hc])) hr]

theorem dropWhileApp (p : Char → Bool) :
    ∀ (v rest : List Char), (∀ c ∈ v, p c = true) →
      (∀ c, rest.head? = some c → p c = false) →
      (v ++ rest).dropWhile p = rest := by
  intro v
  induction v with
  | nil =>
    intro rest _ hr
    cases rest with
    | nil => rfl
    | cons c cs =>
      simp only [List.nil_append]
      rw [List.dropWhile_cons_of_neg]
      simp [hr c rfl]
  | cons a v ih =>
    intro rest hv hr
    have ha : p a = true := hv a (by simp)
    simp only [List.cons_append]
    rw [List.dropWhile_cons_of_pos ha]
    rw [ih rest (fun c hc => hv c (by simp [hc])) hr]

theorem isPrefixOfApp : ∀ (p r : List Char), p.isPrefixOf (p ++ r) = true := by
  intro p r
  exact List.isPrefixOf_iff_prefix.mpr ⟨r, rfl⟩

theorem appOfIsPrefixOf : ∀ {p l : List Char}, p.isPrefixOf l = true → l = p ++ l.drop p.length := by
  intro p l h
  obtain ⟨t, ht⟩ := isPrefixOfToPre h
  subst ht
  rw [List.drop_left]

theorem parseDumpSuffix_some_len {r rest : List Char} (h : parseDumpSuffix r = some rest) :
    rest.length < r.length := by
  simp only [parseDumpSuffix] at h
  split at h
  · rename_i hpre
    have hlen : litDump.length ≤ r.length :=
      (isPrefixOfToPre hpre).length_le
    split at h
    · exact absurd h (by simp)
    · split at h
      · rename_i rest0 heq
        simp only [Option.some.injEq] at h
        subst h
        have h3 : (List.dropWhile Char.isDigit (r.drop litDump.length)).length ≤
            (r.drop litDump.length).length := dropWhileLenLe _ _
        rw [heq] at h3
        simp only [List.length_cons, List.length_drop] at h3
        have h6 : litDump.length = 6 := rfl
        omega
      · exact absurd h (by simp)
  · exact absurd h (by simp)

theorem stepDump_dec :
    ∀ p s out p2 r, stepDump p s = some (out, p2, r) → r.length < s.length := by
  intro p s out p2 r h
  cases s with
  | nil => exact absurd h (by simp [stepDump])
  | cons c cs =>
    simp only [stepDump] at h
    split at h
    · rename_i hw
      have hr1 : ((c :: cs).dropWhile isWordChar).length ≤ cs.length := by
        rw [List.dropWhile_cons_of_pos hw]
        exact dropWhileLenLe _ _
      split at h
      · rename_i rest hps
        simp only [Option.some.injEq, Prod.mk.injEq] at h
        obtain ⟨_, _, hr⟩ := h
        subst hr
        have := parseDumpSuffix_some_len hps
        simp only [List.length_cons]
        omega
      · simp only [Option.some.injEq, Prod.mk.injEq] at h
        obtain ⟨_, _, hr⟩ := h
        subst hr
        simp only [List.length_cons]
        omega
    · exact absurd h (by simp)

theorem parseContainsSuffix_some_len {r k rest : List Char}
    (h : parseContainsSuffix r = some (k, rest)) : rest.length < r.length := by
  simp only [parseContainsSuffix] at h
  split at h
  · rename_i hpre
    have hlen : litContains.length ≤ r.length :=
      (isPrefixOfToPre hpre).length_le
    split at h
    · exact absurd h (by simp)
    · split at h
      · rename_i rest0 heq
        simp only [Option.some.injEq, Prod.mk.injEq] at h
        obtain ⟨_, hr⟩ := h
        subst hr
        have h3 : (List.dropWhile (fun c => !(c == '"')) (r.drop litContains.length)).length ≤
            (r.drop litContains.length).length := dropWhileLenLe _ _
        rw [heq] at h3
        simp only [List.length_cons, List.length_drop] at h3
        have h11 : litContains.length = 11 := rfl
        omega
      · exact absurd h (by simp)
  · exact absurd h (by simp)

theorem stepContains_dec :
    ∀ p s out p2 r, stepContains p s = some (out, p2, r) → r.length < s.length := by
  intro p s out p2 r h
  cases s with
  | nil => exact absurd h (by simp [stepContains])
  | cons c cs =>
    simp only [stepContains] at h
    split at h
    · rename_i hw
      have hr1 : ((c :: cs).dropWhile isWordChar).length ≤ cs.length := by
        rw [List.dropWhile_cons_of_pos hw]
        exact dropWhileLenLe _ _
      split at h
      · rename_i k rest hps
        simp only [Option.some.injEq, Prod.mk.injEq] at h
        obtain ⟨_, _, hr⟩ := h
        subst hr
        have := parseContainsSuffix_some_len hps
        simp only [List.length_cons]
        omega
      · simp only [Option.some.injEq, Prod.mk.injEq] at h
        obtain ⟨_, _, hr⟩ := h
        subst hr
        simp only [List.length_cons]
        omega
    · exact absurd h (by simp)

/-- Anything parseBMatch accepts decomposes into the literal shape of
Script B's pattern. -/

theorem parseBMatch_some {s w k rest : List Char}
    (h : parseBMatch s = some (w, k, rest)) :
    s = w ++ litIsObj ++ w ++ litAsObjContains ++ k ++ '"' :: ')' :: rest ∧
      w ≠ [] ∧ (∀ c ∈ w, isWordChar c = true) ∧ k ≠ [] ∧ (∀ c ∈ k, ¬ c = '"') := by
  simp only [parseBMatch] at h
  split at h
  · exact absurd h (by simp)
  · rename_i hw
    split at h
    · rename_i hpre1
      split at h
      · rename_i hpre2
        split at h
        · rename_i hpre3
          split at h
          · exact absurd h (by simp)
          · rename_i hk
            split at h
            · rename_i rest0 heq
              simp only [Option.some.injEq, Prod.mk.injEq] at h
              obtain ⟨hw1, hk1, hr1⟩ := h
              subst hw1; subst hk1; subst hr1
              refine ⟨?_, hw, ?_, hk, ?_⟩
              · obtain ⟨t1, ht1⟩ := isPrefixOfToPre hpre1
                obtain ⟨t2, ht2⟩ := isPrefixOfToPre hpre2
                obtain ⟨t3, ht3⟩ := isPrefixOfToPre hpre3
                have hr2 : (s.dropWhile isWordChar).drop litIsObj.length = t1 := by
                  rw [← ht1, List.drop_left]
                rw [hr2] at ht2
                have hr3 : t1.drop (s.takeWhile isWordChar).length = t2 := by
                  rw [← ht2, List.drop_left]
                rw [hr2, hr3] at ht3
                have hr4 : t2.drop litAsObjContains.length = t3 := by
                  rw [← ht3, List.drop_left]
                rw [hr2, hr3, hr4] at heq
                rw [hr2, hr3, hr4]
                generalize hkk : t3.takeWhile (fun c => !(c == '"')) = kk
                have e5 : kk ++ '"' :: ')' :: rest0 = t3 := by
                  conv_rhs => rw [← List.takeWhile_append_dropWhile (fun c => !(c == '"')) t3]
                  rw [heq, hkk]
                conv_lhs => rw [← List.takeWhile_append_dropWhile isWordChar s,
                  ← ht1, ← ht2, ← ht3, ← e5]
                simp only [List.append_assoc]
              · intro c hc
                exact List.mem_takeWhile_imp hc
              · intro c hc
                have := List.mem_takeWhile_imp hc
                simp only [Bool.not_eq_true'] at this
                intro he
                rw [he] at this
                simp at this
            · exact absurd h (by simp)
        · exact absurd h (by simp)
      · exact absurd h (by simp)
    · exact absurd h (by simp)

theorem parseBMatch_some_len {s w k rest : List Char}
    (h : parseBMatch s = some (w, k, rest)) : rest.length < s.length := by
  obtain ⟨hs, hw, -, -, -⟩ := parseBMatch_some h
  have h1 : 0 < w.length := List.length_pos.mpr hw
  rw [hs]
  simp only [List.length_append, List.length_cons]
  omega

theorem stepB_dec :
    ∀ p s out p2 r, stepB p s = some (out, p2, r) → r.length < s.length := by
  intro p s out p2 r h
  simp only [stepB] at h
  split at h
  · rename_i w k rest hps
    simp only [Option.some.injEq, Prod.mk.injEq] at h
    obtain ⟨_, _, hr⟩ := h
    subst hr
    exact parseBMatch_some_len hps
  · exact absurd h (by simp)

theorem parseDecl_some_len {s repl rest : List Char} (h : parseDecl s = some (repl, rest)) :
    rest.length < s.length := by
  simp only [parseDecl] at h
  split at h
  · rename_i hpre
    have hlen : litJson.length ≤ s.length :=
      (isPrefixOfToPre hpre).length_le
    have h4 : litJson.length = 4 := rfl
    split at h
    · exact absurd h (by simp)
    · split at h
      · exact absurd h (by simp)
      · split at h
        · rename_i r4 heq
          have hr3 : (List.dropWhile isWordChar
              (List.dropWhile isSpaceChar (s.drop litJson.length))).length ≤
              (s.drop litJson.length).length :=
            le_trans (dropWhileLenLe _ _) (dropWhileLenLe _ _)
          rw [heq] at hr3
          have hr5 : (List.dropWhile isSpaceChar r4).length ≤ r4.length := dropWhileLenLe _ _
          split at h
          · split at h
            · simp only [Option.some.injEq, Prod.mk.injEq] at h
              obtain ⟨-, hr⟩ := h
              subst hr
              simp only [List.length_cons, List.length_drop] at hr3 ⊢
              omega
            · exact absurd h (by simp)
          · exact absurd h (by simp)
        · exact absurd h (by simp)
  · exact absurd h (by simp)

theorem stepDecl_dec :
    ∀ p s out p2 r, stepDecl p s = some (out, p2, r) → r.length < s.length := by
  intro p s out p2 r h
  simp only [stepDecl] at h
  split at h
  · split at h
    · rename_i repl rest hps
      simp only [Option.some.injEq, Prod.mk.injEq] at h
      obtain ⟨-, -, hr⟩ := h
      subst hr
      exact parseDecl_some_len hps
    · exact absurd h (by simp)
  · exact absurd h (by simp)

/-! Evaluation of the scanners on symbolic pattern-shaped inputs. -/

theorem notQuotePred_mem {k : List Char} (hkq : ∀ c ∈ k, ¬ c = '"') :
    ∀ c ∈ k, (fun c => !(c == '"')) c = true := by
  intro c hc
  simp only [Bool.not_eq_true', beq_eq_false_iff_ne]
  exact hkq c hc

theorem notQuotePred_head (y : List Char) :
    ∀ c, ('"' :: y).head? = some c → (fun c => !(c == '"')) c = false := by
  intro c hc
  simp only [List.head?_cons, Option.some.injEq] at hc
  subst hc
  decide

theorem parseContainsSuffix_build (k rest : List Char) (hk : k ≠ [])
    (hkq : ∀ c ∈ k, ¬ c = '"') :
    parseContainsSuffix (litContains ++ (k ++ '"' :: ')' :: rest)) = some (k, rest) := by
  have h1 : litContains.isPrefixOf (litContains ++ (k ++ '"' :: ')' :: rest)) = true :=
    isPrefixOfApp _ _
  have h2 : (litContains ++ (k ++ '"' :: ')' :: rest)).drop litContains.length =
      k ++ '"' :: ')' :: rest := List.drop_left _ _
  have h3 : (k ++ '"' :: ')' :: rest).takeWhile (fun c => !(c == '"')) = k :=
    takeWhileApp _ k ('"' :: ')' :: rest) (notQuotePred_mem hkq) (notQuotePred_head _)
  have h4 : (k ++ '"' :: ')' :: rest).dropWhile (fun c => !(c == '"')) = '"' :: ')' :: rest :=
    dropWhileApp _ k ('"' :: ')' :: rest) (notQuotePred_mem hkq) (notQuotePred_head _)
  simp only [parseContainsSuffix, h1, if_true, h2, h3, h4, if_neg hk]

theorem parseBMatch_build (w k rest : List Char) (hw : w ≠ [])
    (hww : ∀ c ∈ w, isWordChar c = true) (hk : k ≠ []) (hkq : ∀ c ∈ k, ¬ c = '"') :
    parseBMatch (w ++ (litIsObj ++ (w ++ (litAsObjContains ++ (k ++ '"' :: ')' :: rest))))) =
      some (w, k, rest) := by
  have hhead : ∀ c, (litIsObj ++ (w ++ (litAsObjContains ++ (k ++ '"' :: ')' :: rest)))).head? =
      some c → isWordChar c = false := by
    intro c hc
    have : (litIsObj ++ (w ++ (litAsObjContains ++ (k ++ '"' :: ')' :: rest)))).head? =
        some '.' := rfl
    rw [this] at hc
    simp only [Option.some.injEq] at hc
    subst hc
    decide
  have ht : (w ++ (litIsObj ++ (w ++ (litAsObjContains ++
      (k ++ '"' :: ')' :: rest))))).takeWhile isWordChar = w :=
    takeWhileApp _ w _ hww hhead
  have hd : (w ++ (litIsObj ++ (w ++ (litAsObjContains ++
      (k ++ '"' :: ')' :: rest))))).dropWhile isWordChar =
      litIsObj ++ (w ++ (litAsObjContains ++ (k ++ '"' :: ')' :: rest))) :=
    dropWhileApp _ w _ hww hhead
  have h1 : litIsObj.isPrefixOf (litIsObj ++ (w ++ (litAsObjContains ++
      (k ++ '"' :: ')' :: rest)))) = true := isPrefixOfApp _ _
  have h2 : (litIsObj ++ (w ++ (litAsObjContains ++ (k ++ '"' :: ')' :: rest)))).drop
      litIsObj.length = w ++ (litAsObjContains ++ (k ++ '"' :: ')' :: rest)) :=
    List.drop_left _ _
  have h3 : w.isPrefixOf (w ++ (litAsObjContains ++ (k ++ '"' :: ')' :: rest))) = true :=
    isPrefixOfApp _ _
  have h4 : (w ++ (litAsObjContains ++ (k ++ '"' :: ')' :: rest))).drop w.length =
      litAsObjContains ++ (k ++ '"' :: ')' :: rest) := List.drop_left _ _
  have h5 : litAsObjContains.isPrefixOf (litAsObjContains ++ (k ++ '"' :: ')' :: rest)) =
      true := isPrefixOfApp _ _
  have h6 : (litAsObjContains ++ (k ++ '"' :: ')' :: rest)).drop litAsObjContains.length =
      k ++ '"' :: ')' :: rest := List.drop_left _ _
  have h7 : (k ++ '"' :: ')' :: rest).takeWhile (fun c => !(c == '"')) = k :=
    takeWhileApp _ k ('"' :: ')' :: rest) (notQuotePred_mem hkq) (notQuotePred_head _)
  have h8 : (k ++ '"' :: ')' :: rest).dropWhile (fun c => !(c == '"')) = '"' :: ')' :: rest :=
    dropWhileApp _ k ('"' :: ')' :: rest) (notQuotePred_mem hkq) (notQuotePred_head _)
  simp only [parseBMatch, ht, hd, if_neg hw, h1, if_true, h2, h3, h4, h5, h6, h7, h8,
    if_neg hk]

theorem stepContains_build (p : Option Char) (v k rest : List Char) (hv : v ≠ [])
    (hvw : ∀ c ∈ v, isWordChar c = true) (hk : k ≠ []) (hkq : ∀ c ∈ k, ¬ c = '"') :
    stepContains p (v ++ (litContains ++ (k ++ '"' :: ')' :: rest))) =
      some (v ++ litIsObj ++ v ++ litAsObjContains ++ k ++ ['"', ')'], none, rest) := by
  have hhead : ∀ c, (litContains ++ (k ++ '"' :: ')' :: rest)).head? = some c →
      isWordChar c = false := by
    intro c hc
    have : (litContains ++ (k ++ '"' :: ')' :: rest)).head? = some '.' := rfl
    rw [this] at hc
    simp only [Option.some.injEq] at hc
    subst hc
    decide
  have ht := takeWhileApp isWordChar v (litContains ++ (k ++ '"' :: ')' :: rest)) hvw hhead
  have hd := dropWhileApp isWordChar v (litContains ++ (k ++ '"' :: ')' :: rest)) hvw hhead
  cases v with
  | nil => exact absurd rfl hv
  | cons c v2 =>
    have hw : isWordChar c = true := hvw c (by simp)
    rw [List.cons_append] at ht hd
    show stepContains p (c :: (v2 ++ (litContains ++ (k ++ '"' :: ')' :: rest)))) = _
    simp only [stepContains, ht, hd, hw, if_true,
      parseContainsSuffix_build k rest hk hkq]

theorem stepB_build (p : Option Char) (v k rest : List Char) (hv : v ≠ [])
    (hvw : ∀ c ∈ v, isWordChar c = true) (hk : k ≠ []) (hkq : ∀ c ∈ k, ¬ c = '"') :
    stepB p (v ++ (litIsObj ++ (v ++ (litAsObjContains ++ (k ++ '"' :: ')' :: rest))))) =
      some (v ++ litContains ++ k ++ ['"', ')'], none, rest) := by
  simp only [stepB, parseBMatch_build v k rest hv hvw hk hkq]

/-- Shared computation for C5 and C2: Script A's rule 5 on the exact input
form v.contains("k"). -/

theorem ruleContains_transform (v k : List Char) (hv : v ≠ [])
    (hvw : ∀ c ∈ v, isWordChar c = true) (hk : k ≠ []) (hkq : ∀ c ∈ k, ¬ c = '"') :
    ruleContains (v ++ (litContains ++ (k ++ '"' :: ')' :: []))) =
      v ++ litIsObj ++ v ++ litAsObjContains ++ k ++ ['"', ')'] := by
  cases v with
  | nil => exact absurd rfl hv
  | cons c v2 =>
    have hb := stepContains_build none (c :: v2) k [] hv hvw hk hkq
    rw [List.cons_append] at hb
    unfold ruleContains
    rw [List.cons_append]
    rw [scanP_cons_some stepContains stepContains_dec none c
      (v2 ++ (litContains ++ (k ++ '"' :: ')' :: []))) _ none [] hb]
    rw [scanP_nil, List.append_nil]

/-- Shared computation for C2 and the C10 counterexample side: Script B's
rule on the exact conjunction form produced by Script A's rule 5. -/

theorem ruleConfigContains_collapse (v k : List Char) (hv : v ≠ [])
    (hvw : ∀ c ∈ v, isWordChar c = true) (hk : k ≠ []) (hkq : ∀ c ∈ k, ¬ c = '"') :
    ruleConfigContains (v ++ (litIsObj ++ (v ++ (litAsObjContains ++
      (k ++ '"' :: ')' :: []))))) = v ++ litContains ++ k ++ ['"', ')'] := by
  cases v with
  | nil => exact absurd rfl hv
  | cons c v2 =>
    have hb := stepB_build none (c :: v2) k [] hv hvw hk hkq
    rw [List.cons_append] at hb
    unfold ruleConfigContains
    rw [List.cons_append]
    rw [scanP_cons_some stepB stepB_dec none c
      (v2 ++ (litIsObj ++ ((c :: v2) ++ (litAsObjContains ++ (k ++ '"' :: ')' :: []))))) _
      none [] hb]
    rw [scanP_nil, List.append_nil]

theorem parseDumpSuffix_build (d rest : List Char) (hd : d ≠ [])
    (hdd : ∀ c ∈ d, Char.isDigit c = true) :
    parseDumpSuffix (litDump ++ (d ++ ')' :: rest)) = some rest := by
  have hhead : ∀ c, (')' :: rest).head? = some c → Char.isDigit c = false := by
    intro c hc
    simp only [List.head?_cons, Option.some.injEq] at hc
    subst hc
    decide
  have h1 : litDump.isPrefixOf (litDump ++ (d ++ ')' :: rest)) = true := isPrefixOfApp _ _
  have h2 : (litDump ++ (d ++ ')' :: rest)).drop litDump.length = d ++ ')' :: rest :=
    List.drop_left _ _
  have h3 : (d ++ ')' :: rest).takeWhile Char.isDigit = d :=
    takeWhileApp _ d (')' :: rest) hdd hhead
  have h4 : (d ++ ')' :: rest).dropWhile Char.isDigit = ')' :: rest :=
    dropWhileApp _ d (')' :: rest) hdd hhead
  simp only [parseDumpSuffix, h1, if_true, h2, h3, h4, if_neg hd]

theorem parseDumpSuffix_no_digit (x : List Char) (h : x.takeWhile Char.isDigit = []) :
    parseDumpSuffix (litDump ++ x) = none := by
  have h1 : litDump.isPrefixOf (litDump ++ x) = true := isPrefixOfApp _ _
  have h2 : (litDump ++ x).drop litDump.length = x := List.drop_left _ _
  simp only [parseDumpSuffix, h1, if_true, h2, h, if_pos rfl]

theorem parseDumpSuffix_not_dot (s : List Char)
    (h : ∀ c, s.head? = some c → ¬ c = '.') : parseDumpSuffix s = none := by
  cases s with
  | nil =>
    have : litDump.isPrefixOf ([] : List Char) = false := by decide
    simp only [parseDumpSuffix, this]
    rfl
  | cons c cs =>
    have hc : ¬ c = '.' := h c rfl
    have hpre : litDump.isPrefixOf (c :: cs) = false := by
      by_contra hcon
      rw [Bool.not_eq_false] at hcon
      obtain ⟨t, ht⟩ := isPrefixOfToPre hcon
      have : litDump ++ t = '.' :: ("dump(".data ++ t) := rfl
      rw [this] at ht
      exact hc (List.head_eq_of_cons_eq ht).symm
    simp only [parseDumpSuffix, hpre]
    rfl

theorem stepDump_nonword (p : Option Char) (c : Char) (cs : List Char)
    (h : isWordChar c = false) : stepDump p (c :: cs) = none := by
  simp only [stepDump, h]
  rfl

theorem stepDump_skip (p : Option Char) (v rest : List Char) (hv : v ≠ [])
    (hvw : ∀ c ∈ v, isWordChar c = true)
    (hr : ∀ c, rest.head? = some c → isWordChar c = false)
    (hp : parseDumpSuffix rest = none) :
    stepDump p (v ++ rest) = some (v, none, rest) := by
  have ht := takeWhileApp isWordChar v rest hvw hr
  have hd := dropWhileApp isWordChar v rest hvw hr
  cases v with
  | nil => exact absurd rfl hv
  | cons c v2 =>
    have hw : isWordChar c = true := hvw c (by simp)
    rw [List.cons_append] at ht hd
    show stepDump p (c :: (v2 ++ rest)) = _
    simp only [stepDump, ht, hd, hw, if_true, hp]

theorem stepDump_build (p : Option Char) (v d rest : List Char) (hv : v ≠ [])
    (hvw : ∀ c ∈ v, isWordChar c = true) (hd : d ≠ [])
    (hdd : ∀ c ∈ d, Char.isDigit c = true) :
    stepDump p (v ++ (litDump ++ (d ++ ')' :: rest))) =
      some ("boost::json::serialize(".data ++ v ++ [')'], none, rest) := by
  have hhead : ∀ c, (litDump ++ (d ++ ')' :: rest)).head? = some c →
      isWordChar c = false := by
    intro c hc
    have : (litDump ++ (d ++ ')' :: rest)).head? = some '.' := rfl
    rw [this] at hc
    simp only [Option.some.injEq] at hc
    subst hc
    decide
  have ht := takeWhileApp isWordChar v (litDump ++ (d ++ ')' :: rest)) hvw hhead
  have hd2 := dropWhileApp isWordChar v (litDump ++ (d ++ ')' :: rest)) hvw hhead
  cases v with
  | nil => exact absurd rfl hv
  | cons c v2 =>
    have hw : isWordChar c = true := hvw c (by simp)
    rw [List.cons_append] at ht hd2
    show stepDump p (c :: (v2 ++ (litDump ++ (d ++ ')' :: rest)))) = _
    simp only [stepDump, ht, hd2, hw, if_true, parseDumpSuffix_build d rest hd hdd]

/-- Shared computation for C6: the dump rule on the exact input form
v.dump(n). -/

theorem ruleDump_transform (v d : List Char) (hv : v ≠ [])
    (hvw : ∀ c ∈ v, isWordChar c = true) (hd : d ≠ [])
    (hdd : ∀ c ∈ d, Char.isDigit c = true) :
    ruleDump (v ++ (litDump ++ (d ++ ')' :: []))) =
      "boost::json::serialize(".data ++ v ++ [')'] := by
  cases v with
  | nil => exact absurd rfl hv
  | cons c v2 =>
    have hb := stepDump_build none (c :: v2) d [] hv hvw hd hdd
    rw [List.cons_append] at hb
    unfold ruleDump
    rw [List.cons_append]
    rw [scanP_cons_some stepDump stepDump_dec none c
      (v2 ++ (litDump ++ (d ++ ')' :: []))) _ none [] hb]
    rw [scanP_nil, List.append_nil]

theorem scanDump_skip (p : Option Char) (v rest : List Char) (hv : v ≠ [])
    (hvw : ∀ c ∈ v, isWordChar c = true)
    (hr : ∀ c, rest.head? = some c → isWordChar c = false)
    (hp : parseDumpSuffix rest = none) :
    scanP stepDump p (v ++ rest) = v ++ scanP stepDump none rest := by
  cases v with
  | nil => exact absurd rfl hv
  | cons c v2 =>
    have hb := stepDump_skip p (c :: v2) rest hv hvw hr hp
    rw [List.cons_append] at hb
    rw [List.cons_append]
    rw [scanP_cons_some stepDump stepDump_dec p c (v2 ++ rest) _ none rest hb]

theorem scanDump_nonword (p : Option Char) (c : Char) (cs : List Char)
    (h : isWordChar c = false) :
    scanP stepDump p (c :: cs) = c :: scanP stepDump (some c) cs :=
  scanP_cons_none stepDump p c cs (stepDump_nonword p c cs h)

theorem headDotNonword (y : List Char) :
    ∀ c, (litDump ++ y).head? = some c → isWordChar c = false := by
  intro c hc
  have : (litDump ++ y).head? = some '.' := rfl
  rw [this] at hc
  simp only [Option.some.injEq] at hc
  subst hc
  decide

/-- Shared computation for C9, first half: a dump call with no argument is
left unchanged. -/

theorem ruleDump_noop_unit (v : List Char) (hv : v ≠ [])
    (hvw : ∀ c ∈ v, isWordChar c = true) :
    ruleDump (v ++ (litDump ++ [')'])) = v ++ (litDump ++ [')']) := by
  have hp : parseDumpSuffix (litDump ++ [')']) = none :=
    parseDumpSuffix_no_digit [')'] (by decide)
  unfold ruleDump
  rw [scanDump_skip none v (litDump ++ [')']) hv hvw (headDotNonword _) hp]
  have : scanP stepDump none (litDump ++ [')']) = litDump ++ [')'] := by decide
  rw [this]

/-- Shared computation for C9, second half: a dump call whose argument is a
word run with no leading digit is left unchanged. -/

theorem ruleDump_noop_ident (v a : List Char) (hv : v ≠ [])
    (hvw : ∀ c ∈ v, isWordChar c = true) (ha : a ≠ [])
    (haw : ∀ c ∈ a, isWordChar c = true) (had : ∀ c ∈ a, Char.isDigit c = false) :
    ruleDump (v ++ (litDump ++ (a ++ [')']))) = v ++ (litDump ++ (a ++ [')'])) := by
  have htw : (a ++ [')']).takeWhile Char.isDigit = [] := by
    cases a with
    | nil => exact absurd rfl ha
    | cons c a2 =>
      rw [List.cons_append]
      exact List.takeWhile_cons_of_neg (by simp [had c (by simp)])
  have hp1 : parseDumpSuffix (litDump ++ (a ++ [')'])) = none :=
    parseDumpSuffix_no_digit (a ++ [')']) htw
  unfold ruleDump
  rw [scanDump_skip none v (litDump ++ (a ++ [')'])) hv hvw (headDotNonword _) hp1]
  have e1 : litDump ++ (a ++ [')']) = '.' :: ("dump".data ++ ('(' :: (a ++ [')']))) := rfl
  rw [e1]
  rw [scanDump_nonword none '.' ("dump".data ++ ('(' :: (a ++ [')']))) (by decide)]
  have hp2 : parseDumpSuffix ('(' :: (a ++ [')'])) = none := by
    refine parseDumpSuffix_not_dot _ ?_
    intro c hc
    simp only [List.head?_cons, Option.some.injEq] at hc
    subst hc
    decide
  have hhead2 : ∀ c, ('(' :: (a ++ [')'])).head? = some c → isWordChar c = false := by
    intro c hc
    simp only [List.head?_cons, Option.some.injEq] at hc
    subst hc
    decide
  rw [scanDump_skip (some '.') "dump".data ('(' :: (a ++ [')'])) (by decide) (by decide)
    hhead2 hp2]
  rw [scanDump_nonword none '(' (a ++ [')']) (by decide)]
  have hp3 : parseDumpSuffix [')'] = none := by
    refine parseDumpSuffix_not_dot _ ?_
    intro c hc
    simp only [List.head?_cons, Option.some.injEq] at hc
    subst hc
    decide
  have hhead3 : ∀ c, ([')'] : List Char).head? = some c → isWordChar c = false := by
    intro c hc
    simp only [List.head?_cons, Option.some.injEq] at hc
    subst hc
    decide
  rw [scanDump_skip (some '(') a [')'] ha haw hhead3 hp3]
  have : scanP stepDump none [')'] = [')'] := by decide
  rw [this]

/-! Machinery to show Script B leaves a text unchanged: if the pattern
matches at no suffix position, the scan is the identity. -/

theorem stepB_none_of {s : List Char} (p : Option Char) (h : parseBMatch s = none) :
    stepB p s = none := by
  simp only [stepB, h]

theorem scanB_id : ∀ (s : List Char) (p : Option Char),
    (∀ t, t <:+ s → parseBMatch t = none) → scanP stepB p s = s := by
  intro s
  induction s with
  | nil => intro p _; exact scanP_nil _ _
  | cons c cs ih =>
    intro p h
    rw [scanP_cons_none stepB p c cs (stepB_none_of p (h (c :: cs) (List.suffix_refl _)))]
    rw [ih (some c) (fun t ht => h t (ht.trans (List.suffix_cons c cs)))]

/-- A word character is never the double quote. -/

theorem wordNotQuote {c : Char} (h : isWordChar c = true) : ¬ c = '"' := by
  intro he
  subst he
  exact absurd h (by decide)

/-- Splitting a list at a distinguished character occurring in neither
left part is unambiguous. -/

theorem quoteSplit : ∀ (A B C D : List Char), '"' ∉ A → '"' ∉ C →
    A ++ '"' :: B = C ++ '"' :: D → A = C ∧ B = D := by
  intro A
  induction A with
  | nil =>
    intro B C D _ hC h
    cases C with
    | nil =>
      simp only [List.nil_append, List.cons.injEq] at h
      exact ⟨rfl, h.2⟩
    | cons c C2 =>
      simp only [List.nil_append, List.cons_append, List.cons.injEq] at h
      exact absurd (by simp [← h.1]) hC
  | cons a A2 ih =>
    intro B C D hA hC h
    cases C with
    | nil =>
      simp only [List.cons_append, List.nil_append, List.cons.injEq] at h
      exact absurd (by simp [h.1]) hA
    | cons c C2 =>
      simp only [List.cons_append, List.cons.injEq] at h
      obtain ⟨hac, h2⟩ := h
      have hA2 : '"' ∉ A2 := fun hm => hA (by simp [hm])
      have hC2 : '"' ∉ C2 := fun hm => hC (by simp [hm])
      obtain ⟨e1, e2⟩ := ih B C2 D hA2 hC2 h2
      exact ⟨by rw [hac, e1], e2⟩

theorem countZeroOfNotMem {l : List Char} (h : '"' ∉ l) : l.count '"' = 0 :=
  List.count_eq_zero.mpr h

/-- Core of the corrected C10: when b is not a suffix of a, Script B's
pattern matches at no position of a.is_object() && b.as_object().contains("k").
Any match would have to use the only two quotes of the text, forcing its
two backreference occurrences to align with a's tail and with b, which
would make b a suffix of a. -/

theorem bPatternNoSuffixMatch (a b k : List Char)
    (hwa : ∀ c ∈ a, isWordChar c = true) (hwb : ∀ c ∈ b, isWordChar c = true)
    (hnsuf : ¬ b <:+ a) (hkq : ∀ c ∈ k, ¬ c = '"') :
    ∀ t, t <:+ (a ++ litIsObj ++ b ++ litAsObjContains ++ k ++ ['"', ')']) →
      parseBMatch t = none := by
  intro t ht
  cases hp : parseBMatch t with
  | none => rfl
  | some res =>
    exfalso
    obtain ⟨w, k1, rest⟩ := res
    obtain ⟨hshape, hwne, hwword, hk1ne, hk1q⟩ := parseBMatch_some hp
    obtain ⟨u, hu⟩ := ht
    rw [hshape] at hu
    have hqa : '"' ∉ a := fun hm => wordNotQuote (hwa _ hm) rfl
    have hqb : '"' ∉ b := fun hm => wordNotQuote (hwb _ hm) rfl
    have hqw : '"' ∉ w := fun hm => wordNotQuote (hwword _ hm) rfl
    have hqk : '"' ∉ k := fun hm => hkq _ hm rfl
    have hqk1 : '"' ∉ k1 := fun hm => hk1q _ hm rfl
    have hqL1 : '"' ∉ litIsObj := by decide
    have hqX : '"' ∉ ".as_object().contains(".data := by decide
    have hqu : '"' ∉ u := by
      have hcnt := congrArg (List.count '"') hu
      simp only [List.count_append, List.count_cons, List.count_nil] at hcnt
      rw [countZeroOfNotMem hqa, countZeroOfNotMem hqb, countZeroOfNotMem hqw,
        countZeroOfNotMem hqk, countZeroOfNotMem hqk1, countZeroOfNotMem hqL1] at hcnt
      have hcL2 : litAsObjContains.count '"' = 1 := by decide
      rw [hcL2] at hcnt
      simp only [beq_self_eq_true, if_true, beq_iff_eq] at hcnt
      have hpar : ¬ (')' = '"') := by decide
      rw [if_neg hpar] at hcnt
      refine List.count_eq_zero.mp ?_
      omega
    have hX : litAsObjContains = ".as_object().contains(".data ++ ['"'] := by decide
    rw [hX] at hu
    have hu2 : (u ++ (w ++ (litIsObj ++ (w ++ ".as_object().contains(".data)))) ++
        '"' :: (k1 ++ '"' :: ')' :: rest) =
        (a ++ (litIsObj ++ (b ++ ".as_object().contains(".data))) ++
        '"' :: (k ++ '"' :: ')' :: []) := by
      simp only [List.append_assoc, List.cons_append, List.singleton_append,
        List.append_nil] at hu ⊢
      exact hu
    have hA : '"' ∉ u ++ (w ++ (litIsObj ++ (w ++ ".as_object().contains(".data))) := by
      intro hm
      simp only [List.mem_append] at hm
      rcases hm with h | h | h | h | h
      exacts [hqu h, hqw h, hqL1 h, hqw h, hqX h]
    have hC : '"' ∉ a ++ (litIsObj ++ (b ++ ".as_object().contains(".data)) := by
      intro hm
      simp only [List.mem_append] at hm
      rcases hm with h | h | h | h
      exacts [hqa h, hqL1 h, hqb h, hqX h]
    have hsp := quoteSplit _ _ _ _ hA hC hu2
    have E : (u ++ (w ++ (litIsObj ++ w))) ++ ".as_object().contains(".data =
        (a ++ (litIsObj ++ b)) ++ ".as_object().contains(".data := by
      simp only [List.append_assoc]
      exact hsp.1
    have E2 := List.append_cancel_right E
    have E3 := congrArg List.reverse E2
    simp only [List.reverse_append, List.append_assoc] at E3
    have hrevL1 : litIsObj.reverse = ' ' :: "&& )(tcejbo_si.".data := by decide
    rcases List.append_eq_append_iff.mp E3 with ⟨m, hm1, hm2⟩ | ⟨m, hm1, hm2⟩
    · cases m with
      | nil =>
        rw [List.append_nil] at hm1
        have hbw : b = w := List.reverse_injective hm1
        rw [List.nil_append] at hm2
        have hrev := List.append_cancel_left hm2
        have ha2 : a = u ++ w := by
          have h9 := congrArg List.reverse hrev
          simp only [List.reverse_append, List.reverse_reverse] at h9
          exact h9.symm
        exact hnsuf (by rw [hbw, ha2]; exact ⟨u, rfl⟩)
      | cons c m2 =>
        rw [hrevL1] at hm2
        simp only [List.cons_append] at hm2
        injection hm2 with hc _
        have hcb : c ∈ b.reverse := by
          rw [hm1]
          exact List.mem_append_right _ (by simp)
        have hword := hwb c (List.mem_reverse.mp hcb)
        rw [← hc] at hword
        exact absurd hword (by decide)
    · cases m with
      | nil =>
        rw [List.append_nil] at hm1
        have hbw : b = w := (List.reverse_injective hm1).symm
        rw [List.nil_append] at hm2
        have hrev := List.append_cancel_left hm2
        have ha2 : a = u ++ w := by
          have h9 := congrArg List.reverse hrev
          simp only [List.reverse_append, List.reverse_reverse] at h9
          exact h9
        exact hnsuf (by rw [hbw, ha2]; exact ⟨u, rfl⟩)
      | cons c m2 =>
        rw [hrevL1] at hm2
        simp only [List.cons_append] at hm2
        injection hm2 with hc _
        have hcw : c ∈ w.reverse := by
          rw [hm1]
          exact List.mem_append_right _ (by simp)
        have hword := hwword c (List.mem_reverse.mp hcw)
        rw [← hc] at hword
        exact absurd hword (by decide)

/-! Support for the whole-script claims. -/

theorem fix_printed (filepath content : String) :
    (fix_boost_json_file filepath content).printed =
      if (fix_boost_json_file filepath content).fixed then ["Fixed: " ++ filepath]
      else [] := by
  simp only [fix_boost_json_file]
  split <;> simp

theorem mainFoldl : ∀ (files : List (String × String)) (acc : List String × Nat),
    files.foldl mainStep acc =
      (acc.1 ++ (files.filter (fun f => (fix_boost_json_file f.1 f.2).fixed)).map
        (fun f => "Fixed: " ++ f.1),
       acc.2 + files.countP (fun f => (fix_boost_json_file f.1 f.2).fixed)) := by
  intro files
  induction files with
  | nil =>
    intro acc
    simp only [List.foldl_nil, List.filter_nil, List.map_nil, List.append_nil,
      List.countP_nil, Nat.add_zero]
  | cons f fs ih =>
    intro acc
    rw [List.foldl_cons, ih]
    have hpr := fix_printed f.1 f.2
    by_cases hf : (fix_boost_json_file f.1 f.2).fixed
    · rw [hf] at hpr
      simp only [if_true] at hpr
      simp only [mainStep, hpr, hf, if_true, List.filter_cons, List.countP_cons,
        List.map_cons, Prod.mk.injEq]
      exact ⟨by simp [List.append_assoc], by omega⟩
    · rw [Bool.not_eq_true] at hf
      rw [hf] at hpr
      simp only [Bool.false_eq_true, if_false] at hpr
      simp only [mainStep, hpr, hf, List.filter_cons, List.countP_cons,
        Bool.false_eq_true, if_false, Prod.mk.injEq]
      exact ⟨by simp, by omega⟩

/-! The claims. -/

/-- C1, counterexample: the array-normalization rule of Script A (line 19)
is not idempotent.  On the input json::array() one application yields
boost::json::array(), but a second application changes that output again,
because the json::array() inside it still follows a word boundary (the
colon is not a word character). -/

theorem c1_counterexample :
    ruleJsonArray (ruleJsonArray "json::array()".data) ≠
      ruleJsonArray "json::array()".data := by decide

/-- C1, amended: the rule replaces json::array() (at a word boundary) with
boost::json::array(), but it is not idempotent: since :: is not made of
word characters, the json::array() inside the output still matches, so a
second application prepends another boost:: — applying the rule to
json::array() gives boost::json::array(), and applying it to that gives
boost::boost::json::array(). -/

theorem c1_array_rule_not_idempotent :
    ruleJsonArray "json::array()".data = "boost::json::array()".data ∧
      ruleJsonArray "boost::json::array()".data = "boost::boost::json::array()".data := by
  decide

/-- C2: Script B's substitution exactly inverts Script A's rule 5 on
matching variable/key pairs: for every identifier v and nonempty key k
without a double quote, rule 5 turns v.contains("k") into
v.is_object() && v.as_object().contains("k"), and Script B's rule turns
that back into v.contains("k"). -/

theorem c2_config_inverts_rule5 (v k : List Char) (hv : v ≠ [])
    (hvw : ∀ c ∈ v, isWordChar c = true) (hk : k ≠ []) (hkq : ∀ c ∈ k, ¬ c = '"') :
    ruleContains (v ++ litContains ++ k ++ ['"', ')']) =
      v ++ litIsObj ++ v ++ litAsObjContains ++ k ++ ['"', ')'] ∧
    ruleConfigContains (v ++ litIsObj ++ v ++ litAsObjContains ++ k ++ ['"', ')']) =
      v ++ litContains ++ k ++ ['"', ')'] := by
  constructor
  · have e : v ++ litContains ++ k ++ ['"', ')'] =
        v ++ (litContains ++ (k ++ '"' :: ')' :: [])) := by
      simp [List.append_assoc]
    rw [e]
    exact ruleContains_transform v k hv hvw hk hkq
  · have e : v ++ litIsObj ++ v ++ litAsObjContains ++ k ++ ['"', ')'] =
        v ++ (litIsObj ++ (v ++ (litAsObjContains ++ (k ++ '"' :: ')' :: [])))) := by
      simp [List.append_assoc]
    rw [e]
    exact ruleConfigContains_collapse v k hv hvw hk hkq

theorem c2_witness :
    ruleContains ("v".data ++ litContains ++ "k".data ++ ['"', ')']) =
      "v".data ++ litIsObj ++ "v".data ++ litAsObjContains ++ "k".data ++ ['"', ')'] ∧
    ruleConfigContains ("v".data ++ litIsObj ++ "v".data ++ litAsObjContains ++
      "k".data ++ ['"', ')']) = "v".data ++ litContains ++ "k".data ++ ['"', ')'] :=
  c2_config_inverts_rule5 "v".data "k".data (by decide) (by decide) (by decide) (by decide)

/-- C3: a file on which none of Script A's substitutions fire is left
alone: fix_boost_json_file performs no write, prints nothing and returns
False. -/

theorem c3_no_match_no_write (filepath content : String)
    (h1 : ruleDecl content.data = content.data)
    (h2 : ruleJsonArray content.data = content.data)
    (h3 : ruleValueArray content.data = content.data)
    (h4 : ruleJsonObject content.data = content.data)
    (h5 : ruleValueObject content.data = content.data)
    (h6 : ruleDump content.data = content.data)
    (h7 : ruleContains content.data = content.data) :
    fix_boost_json_file filepath content = FixResult.mk none [] false := by
  have hfix : applyFixes content = content := by
    unfold applyFixes
    rw [h1, h2, h3, h4, h5, h6, h7]
  simp only [fix_boost_json_file, hfix]
  rw [if_neg (fun h => h rfl)]

theorem c3_witness :
    fix_boost_json_file "a.cpp" "int x = 0;" = FixResult.mk none [] false :=
  c3_no_match_no_write "a.cpp" "int x = 0;" (by decide) (by decide) (by decide)
    (by decide) (by decide) (by decide) (by decide)

/-- C4: Script A's rule 1 rewrites a loose declaration followed by a
bracket-indexed assignment on the same variable into an explicitly typed
object declaration, preserving the indentation and the assignment. -/

theorem c4_decl_rule :
    ruleDecl "json foo;\n    foo[\"bar\"] = 1;".data =
      "boost::json::object foo;\n    foo[\"bar\"] = 1;".data := by decide

/-- C5: Script A's rule 5 rewrites v.contains("k") into the guarded
conjunction v.is_object() && v.as_object().contains("k") for every
identifier v and nonempty key k without a double quote. -/

theorem c5_contains_guard (v k : List Char) (hv : v ≠ [])
    (hvw : ∀ c ∈ v, isWordChar c = true) (hk : k ≠ []) (hkq : ∀ c ∈ k, ¬ c = '"') :
    ruleContains (v ++ litContains ++ k ++ ['"', ')']) =
      v ++ litIsObj ++ v ++ litAsObjContains ++ k ++ ['"', ')'] := by
  have e : v ++ litContains ++ k ++ ['"', ')'] =
      v ++ (litContains ++ (k ++ '"' :: ')' :: [])) := by
    simp [List.append_assoc]
  rw [e]
  exact ruleContains_transform v k hv hvw hk hkq

theorem c5_witness :
    ruleContains ("v".data ++ litContains ++ "k".data ++ ['"', ')']) =
      "v".data ++ litIsObj ++ "v".data ++ litAsObjContains ++ "k".data ++ ['"', ')'] :=
  c5_contains_guard "v".data "k".data (by decide) (by decide) (by decide) (by decide)

/-- C6: Script A's rule 4 rewrites v.dump(n) into boost::json::serialize(v)
for every identifier v and decimal integer literal n, dropping the
indentation argument. -/

theorem c6_dump_serialize (v d : List Char) (hv : v ≠ [])
    (hvw : ∀ c ∈ v, isWordChar c = true) (hd : d ≠ [])
    (hdd : ∀ c ∈ d, Char.isDigit c = true) :
    ruleDump (v ++ litDump ++ d ++ [')']) =
      "boost::json::serialize(".data ++ v ++ [')'] := by
  have e : v ++ litDump ++ d ++ [')'] = v ++ (litDump ++ (d ++ ')' :: [])) := by
    simp [List.append_assoc]
  rw [e]
  exact ruleDump_transform v d hv hvw hd hdd

theorem c6_witness :
    ruleDump ("v".data ++ litDump ++ "2".data ++ [')']) =
      "boost::json::serialize(".data ++ "v".data ++ [')'] :=
  c6_dump_serialize "v".data "2".data (by decide) (by decide) (by decide) (by decide)

/-- C7: Script B always writes its one hardcoded file and always prints
the fixed message, for every content — including content on which the
substitution is the identity, which is then written back unchanged. -/

theorem c7_config_always_writes (content : String) :
    fix_config content = ConfigResult.mk
      (some (String.mk (ruleConfigContains content.data))) ["Fixed config.cpp"] ∧
    (String.mk (ruleConfigContains content.data) = content →
      fix_config content = ConfigResult.mk (some content) ["Fixed config.cpp"]) := by
  refine ⟨rfl, fun h => ?_⟩
  unfold fix_config
  rw [h]

theorem c7_witness :
    fix_config "int x;" = ConfigResult.mk (some "int x;") ["Fixed config.cpp"] :=
  (c7_config_always_writes "int x;").2 (by decide)

/-- C8: Script A's console output is exactly one Fixed: path line per
modified file, in order, followed by the final Fixed N files line, where N
counts the files on which fix_boost_json_file returned True. -/

theorem c8_main_output (files : List (String × String)) :
    mainScriptA files =
      (files.filter (fun f => (fix_boost_json_file f.1 f.2).fixed)).map
        (fun f => "Fixed: " ++ f.1) ++
      ["Fixed " ++ toString (files.countP
        (fun f => (fix_boost_json_file f.1 f.2).fixed)) ++ " files"] := by
  unfold mainScriptA
  rw [mainFoldl files ([], 0)]
  simp only [List.nil_append, Nat.zero_add]

/-- C9: Script A's rule 4 fires only on calls whose argument is a decimal
integer literal: a call with no argument (v.dump()) and a call with an
identifier argument (v.dump(a), first character not a digit) are left
unchanged. -/

theorem c9_dump_needs_int_literal (v a : List Char) (hv : v ≠ [])
    (hvw : ∀ c ∈ v, isWordChar c = true) (ha : a ≠ [])
    (haw : ∀ c ∈ a, isWordChar c = true) (had : ∀ c ∈ a, Char.isDigit c = false) :
    ruleDump (v ++ litDump ++ [')']) = v ++ litDump ++ [')'] ∧
    ruleDump (v ++ litDump ++ a ++ [')']) = v ++ litDump ++ a ++ [')'] := by
  constructor
  · have e : v ++ litDump ++ [')'] = v ++ (litDump ++ [')']) := by
      simp [List.append_assoc]
    rw [e]
    exact ruleDump_noop_unit v hv hvw
  · have e : v ++ litDump ++ a ++ [')'] = v ++ (litDump ++ (a ++ [')'])) := by
      simp [List.append_assoc]
    rw [e]
    exact ruleDump_noop_ident v a hv hvw ha haw had

theorem c9_witness :
    ruleDump ("v".data ++ litDump ++ [')']) = "v".data ++ litDump ++ [')'] ∧
    ruleDump ("v".data ++ litDump ++ "indent".data ++ [')']) =
      "v".data ++ litDump ++ "indent".data ++ [')'] :=
  c9_dump_needs_int_literal "v".data "indent".data (by decide) (by decide) (by decide)
    (by decide) (by decide)

/-- C10, counterexample: distinctness of the two identifiers is not enough
for Script B's rule to leave the text alone.  With a = xv and b = v the
pattern matches starting inside a (the backreference group is the suffix v
of xv), so xv.is_object() && v.as_object().contains("k") is rewritten to
xv.contains("k") and the text is changed. -/

theorem c10_counterexample :
    ruleConfigContains "xv.is_object() && v.as_object().contains(\"k\")".data =
      "xv.contains(\"k\")".data ∧
    ruleConfigContains "xv.is_object() && v.as_object().contains(\"k\")".data ≠
      "xv.is_object() && v.as_object().contains(\"k\")".data := by decide

/-- C10, amended: Script B's substitution leaves
a.is_object() && b.as_object().contains("k") unchanged for distinct
identifiers a and b, provided b is not a suffix of a (were b a suffix of
a, the backreference could match that suffix, as the counterexample
shows). -/

theorem c10_backref_requires_same_var (a b k : List Char) (_ha : a ≠ [])
    (hwa : ∀ c ∈ a, isWordChar c = true) (_hb : b ≠ [])
    (hwb : ∀ c ∈ b, isWordChar c = true) (hnsuf : ¬ b <:+ a) (_hk : k ≠ [])
    (hkq : ∀ c ∈ k, ¬ c = '"') :
    ruleConfigContains (a ++ litIsObj ++ b ++ litAsObjContains ++ k ++ ['"', ')']) =
      a ++ litIsObj ++ b ++ litAsObjContains ++ k ++ ['"', ')'] := by
  unfold ruleConfigContains
  exact scanB_id _ none (bPatternNoSuffixMatch a b k hwa hwb hnsuf hkq)

theorem c10_witness :
    ruleConfigContains ("v".data ++ litIsObj ++ "xv".data ++ litAsObjContains ++
      "k".data ++ ['"', ')']) =
      "v".data ++ litIsObj ++ "xv".data ++ litAsObjContains ++ "k".data ++ ['"', ')'] :=
  c10_backref_requires_same_var "v".data "xv".data "k".data (by decide) (by decide)
    (by decide) (by decide) (by decide) (by decide) (by decide)
